import Mathlib

/-!
Verification of the Fourier-space back-projection engine of
`cryodrgn/commands/backproject_voxel.py`.

The splat `add_slice` (lines 105-126) is embedded for a single sample
point (the vectorized torch code applies the same eight sequential
per-corner updates; with one sample per call the vectorized and the
sequential semantics coincide).  Coordinates are rationals (every
floating-point coordinate is a rational), voxel values are reals, and
the Euclidean distance of the weight formula uses `Real.sqrt`.

Torch tensor indexing raises `IndexError` for an index `≥ D` or `< -D`
and wraps a negative index `i ∈ [-D, 0)` to `i + D`; `resolveIdx`
models exactly that, and fallibility is modelled with `Option`.
-/

namespace CryoDRGN

/-- A continuous sample coordinate `(x, y, z)` in voxel units. -/
abbrev Pt := ℚ × ℚ × ℚ

/-- An integer lattice corner `(xi, yi, zi)`. -/
abbrev Corner := ℤ × ℤ × ℤ

/-- A voxel index of the `D × D × D` volumes, in the source's indexing
order `(zi + d2, yi + d2, xi + d2)`. -/
abbrev Idx (D : ℕ) := Fin D × Fin D × Fin D

/-- The accumulator volume `V` and the weight volume `counts`
(lines 196-197 allocate both as `torch.zeros((D, D, D))`). -/
@[ext]
structure BPState (D : ℕ) where
  V : Idx D → ℝ
  counts : Idx D → ℝ

/-- Zero-initialized accumulator and weight volumes (lines 196-197). -/
def zeroState (D : ℕ) : BPState D := ⟨fun _ => 0, fun _ => 0⟩

/-- `d2 = int(D / 2)` (line 106). -/
def d2 (D : ℕ) : ℤ := ((D / 2 : ℕ) : ℤ)

/-- Torch index resolution on a dimension of size `D`: an index in
`[0, D)` is used as is, an index in `[-D, 0)` wraps to `i + D`, and
anything else raises `IndexError` (modelled as `none`). -/
def resolveIdx (D : ℕ) (i : ℤ) : Option (Fin D) :=
  if h : 0 ≤ i ∧ i < (D : ℤ) then some ⟨i.toNat, by omega⟩
  else if h2 : -(D : ℤ) ≤ i ∧ i < 0 then some ⟨(i + D).toNat, by omega⟩
  else none

/-- The splat weight of corner `c` for sample `p` (lines 112-114):
`w = 1 - sqrt((xi-x)^2 + (yi-y)^2 + (zi-z)^2)`, then `w[w < 0] = 0`. -/
noncomputable def weight (c : Corner) (p : Pt) : ℝ :=
  if 1 - Real.sqrt (((c.1 : ℝ) - (p.1 : ℝ)) ^ 2
      + ((c.2.1 : ℝ) - (p.2.1 : ℝ)) ^ 2 + ((c.2.2 : ℝ) - (p.2.2 : ℝ)) ^ 2) < 0
  then 0
  else 1 - Real.sqrt (((c.1 : ℝ) - (p.1 : ℝ)) ^ 2
    + ((c.2.1 : ℝ) - (p.2.1 : ℝ)) ^ 2 + ((c.2.2 : ℝ) - (p.2.2 : ℝ)) ^ 2)

/-- One corner update of `add_for_corner` (lines 111-116):
`V[(zi+d2, yi+d2, xi+d2)] += w * ff` and
`counts[(zi+d2, yi+d2, xi+d2)] += w`, failing when any of the three
indices does not resolve. -/
noncomputable def add_for_corner (D : ℕ) (st : BPState D) (p : Pt) (v : ℝ)
    (c : Corner) : Option (BPState D) :=
  match resolveIdx D (c.2.2 + d2 D), resolveIdx D (c.2.1 + d2 D),
      resolveIdx D (c.1 + d2 D) with
  | some zi, some yi, some xi =>
      some ⟨fun j => if j = (zi, yi, xi) then st.V j + weight c p * v else st.V j,
            fun j => if j = (zi, yi, xi) then st.counts j + weight c p else st.counts j⟩
  | _, _, _ => none

/-- The eight floor/ceil corner combinations, in the order of the eight
`add_for_corner` calls on lines 118-125. -/
def cornersOf (p : Pt) : List Corner :=
  let xf := Int.floor p.1
  let yf := Int.floor p.2.1
  let zf := Int.floor p.2.2
  let xc := Int.ceil p.1
  let yc := Int.ceil p.2.1
  let zc := Int.ceil p.2.2
  [(xf, yf, zf), (xc, yf, zf), (xf, yc, zf), (xf, yf, zc),
   (xc, yc, zf), (xf, yc, zc), (xc, yf, zc), (xc, yc, zc)]

/-- Sequential threading of the per-corner updates through the state. -/
noncomputable def foldCorners (D : ℕ) (p : Pt) (v : ℝ) :
    List Corner → BPState D → Option (BPState D)
  | [], st => some st
  | c :: rest, st =>
      (add_for_corner D st p v c).bind (fun s => foldCorners D p v rest s)

/-- `add_slice` (lines 105-126) for one sample: the eight sequential
corner updates, in source order. -/
noncomputable def add_slice (D : ℕ) (st : BPState D) (p : Pt) (v : ℝ) :
    Option (BPState D) :=
  foldCorners D p v (cornersOf p) st

/-- The driver's accumulation loop (lines 207-252) as seen by the
volumes: one `add_slice` invocation per processed sample. -/
noncomputable def backproject (D : ℕ) :
    List (Pt × ℝ) → BPState D → Option (BPState D)
  | [], st => some st
  | pv :: rest, st =>
      (add_slice D st pv.1 pv.2).bind (fun s => backproject D rest s)

/-- The result of one corner update at voxel `i` with weight `w`:
`V[i] += w * v` and `counts[i] += w`. -/
noncomputable def applyCorner (D : ℕ) (st : BPState D) (i : Idx D)
    (w v : ℝ) : BPState D :=
  ⟨fun j => if j = i then st.V j + w * v else st.V j,
   fun j => if j = i then st.counts j + w else st.counts j⟩

/-- Element-wise sum of two accumulator/weight pairs. -/
def addState (D : ℕ) (s1 s2 : BPState D) : BPState D :=
  ⟨fun i => s1.V i + s2.V i, fun i => s1.counts i + s2.counts i⟩

open Classical in
/-- Terminal normalization (lines 260-261): `counts[counts == 0] = 1`
followed by `V /= counts`. -/
noncomputable def normalizeState (D : ℕ) (st : BPState D) : BPState D :=
  ⟨fun i => st.V i / (if st.counts i = 0 then 1 else st.counts i),
   fun i => if st.counts i = 0 then 1 else st.counts i⟩

/-- The phases of `main` after the entry assertion, in source order:
dataset loading (lines 152-176), volume allocation (lines 196-197),
the accumulation loop (lines 207-252), and the output write (line 263). -/
inductive Effect where
  | loadDataset
  | allocVolumes
  | accumulateImages
  | writeOutput

/-- Python's `str.endswith(sfx)` on a path modelled as its character
list: true exactly when `sfx` is a suffix of `path`. -/
def endsWithChars (path sfx : List Char) : Bool :=
  decide (List.drop (path.length - sfx.length) path = sfx)

/-- The characters of the required output suffix `".mrc"` (line 130). -/
def mrcSuffix : List Char := ['.', 'm', 'r', 'c']

/-- Embedding of `main` (lines 129-263) as seen by the volumes,
abstracted over the externally loaded dataset (one sample per image).
The entry assertion `assert args.o.endswith(".mrc")` (line 130) runs
first; every later phase happens only if it passes. -/
noncomputable def runMain (o : List Char) (D : ℕ) (images : List (Pt × ℝ)) :
    Except String (List Effect × BPState D) :=
  if endsWithChars o mrcSuffix then
    match backproject D images (zeroState D) with
    | none => Except.error "IndexError"
    | some st =>
        Except.ok ([Effect.loadDataset, Effect.allocVolumes,
          Effect.accumulateImages, Effect.writeOutput], normalizeState D st)
  else Except.error "AssertionError"

/-- Embedding of the data fetch on line 211,
`ff = data.get_tilt(index) if args.do_tilt_series else data[ii]`:
the name `index` is looked up in the enclosing scope, modelled as an
`Option ℕ` binding, and the lookup fails (NameError, modelled `none`)
when the name is unbound. -/
def fetchFF (F : Type) (doTiltSeries : Bool) (scopeIndex : Option ℕ)
    (getTilt : ℕ → F) (getItem : ℕ → F) (ii : ℕ) : Option F :=
  if doTiltSeries then scopeIndex.map getTilt else some (getItem ii)

/-- The binding of the name `index` in the scope of `main`: no statement
of `main` (nor of the module top level) ever assigns `index`, so the
name is unbound. -/
def main_index_binding : Option ℕ := none

/-- Dot product of a 2D frequency coordinate with a 2D translation. -/
def dot2 (a b : ℚ × ℚ) : ℚ := a.1 * b.1 + a.2 * b.2

/-- Modelled from the spec: `Lattice.translate_ht` (cryodrgn/lattice.py,
not under src/).  Per spec section 4.3 step 1, translation by `t` is an
element-wise multiplication of the masked coefficients by a complex
exponential of the dot product of each frequency coordinate with `t`. -/
noncomputable def translate_ht {I : Type} (freqs : I → ℚ × ℚ) (t : ℚ × ℚ)
    (ff : I → ℂ) : I → ℂ :=
  fun i => Complex.exp (-2 * Real.pi * Complex.I * (dot2 (freqs i) t : ℝ)) * ff i

/-- The CTF-sign correction `ff *= c.sign()` (line 225), element-wise
multiplication of the masked coefficients by the sign of the CTF value
at each masked frequency. -/
noncomputable def ctfSignCorrect {I : Type} (c : I → ℝ) (ff : I → ℂ) : I → ℂ :=
  fun i => ff i * (Real.sign (c i) : ℂ)

/-! ### Basic lemmas about the splat -/

lemma weight_nonneg (c : Corner) (p : Pt) : 0 ≤ weight c p := by
  unfold weight
  split
  · exact le_refl 0
  · linarith [not_lt.mp (by assumption : ¬ _ < (0 : ℝ))]

lemma weight_eq_max (c : Corner) (p : Pt) :
    weight c p = max 0 (1 - Real.sqrt (((c.1 : ℝ) - (p.1 : ℝ)) ^ 2
      + ((c.2.1 : ℝ) - (p.2.1 : ℝ)) ^ 2 + ((c.2.2 : ℝ) - (p.2.2 : ℝ)) ^ 2)) := by
  unfold weight
  rw [max_def]
  split <;> split <;> first | rfl | linarith

lemma weight_int (a b c : ℤ) :
    weight (a, b, c) ((a : ℚ), (b : ℚ), (c : ℚ)) = 1 := by
  unfold weight
  push_cast
  simp

lemma resolveIdx_pos (D : ℕ) (i : ℤ) (h0 : 0 ≤ i) (h1 : i < (D : ℤ)) :
    resolveIdx D i = some ⟨i.toNat, by omega⟩ := by
  unfold resolveIdx
  rw [dif_pos ⟨h0, h1⟩]

lemma resolveIdx_neg (D : ℕ) (i : ℤ) (h0 : -(D : ℤ) ≤ i) (h1 : i < 0) :
    resolveIdx D i = some ⟨(i + D).toNat, by omega⟩ := by
  unfold resolveIdx
  rw [dif_neg (by omega), dif_pos ⟨h0, h1⟩]

lemma resolveIdx_none (D : ℕ) (i : ℤ) (h : i < -(D : ℤ) ∨ (D : ℤ) ≤ i) :
    resolveIdx D i = none := by
  unfold resolveIdx
  rw [dif_neg (by omega), dif_neg (by omega)]

lemma add_for_corner_eq (D : ℕ) (st : BPState D) (p : Pt) (v : ℝ) (c : Corner)
    (hx : 0 ≤ c.1 + d2 D ∧ c.1 + d2 D < (D : ℤ))
    (hy : 0 ≤ c.2.1 + d2 D ∧ c.2.1 + d2 D < (D : ℤ))
    (hz : 0 ≤ c.2.2 + d2 D ∧ c.2.2 + d2 D < (D : ℤ)) :
    add_for_corner D st p v c =
      some (applyCorner D st
        (⟨(c.2.2 + d2 D).toNat, by omega⟩, ⟨(c.2.1 + d2 D).toNat, by omega⟩,
         ⟨(c.1 + d2 D).toNat, by omega⟩) (weight c p) v) := by
  unfold add_for_corner
  rw [resolveIdx_pos D _ hz.1 hz.2, resolveIdx_pos D _ hy.1 hy.2,
    resolveIdx_pos D _ hx.1 hx.2]
  rfl

lemma applyCorner_applyCorner (D : ℕ) (st : BPState D) (i : Idx D) (w u v : ℝ) :
    applyCorner D (applyCorner D st i w v) i u v = applyCorner D st i (w + u) v := by
  unfold applyCorner
  ext j <;> by_cases h : j = i <;> simp [h] <;> ring

lemma cornersOf_int (a b c : ℤ) :
    cornersOf ((a : ℚ), (b : ℚ), (c : ℚ)) =
      [(a, b, c), (a, b, c), (a, b, c), (a, b, c),
       (a, b, c), (a, b, c), (a, b, c), (a, b, c)] := by
  simp [cornersOf]

lemma add_slice_int_point (D : ℕ) (st : BPState D) (a b c : ℤ) (v : ℝ)
    (hx : 0 ≤ a + d2 D ∧ a + d2 D < (D : ℤ))
    (hy : 0 ≤ b + d2 D ∧ b + d2 D < (D : ℤ))
    (hz : 0 ≤ c + d2 D ∧ c + d2 D < (D : ℤ)) :
    add_slice D st ((a : ℚ), (b : ℚ), (c : ℚ)) v =
      some (applyCorner D st
        (⟨(c + d2 D).toNat, by omega⟩, ⟨(b + d2 D).toNat, by omega⟩,
         ⟨(a + d2 D).toNat, by omega⟩) 8 v) := by
  have hstep : ∀ s : BPState D,
      add_for_corner D s ((a : ℚ), (b : ℚ), (c : ℚ)) v (a, b, c) =
        some (applyCorner D s
          (⟨(c + d2 D).toNat, by omega⟩, ⟨(b + d2 D).toNat, by omega⟩,
           ⟨(a + d2 D).toNat, by omega⟩) 1 v) := by
    intro s
    rw [add_for_corner_eq D s _ v (a, b, c) hx hy hz, weight_int]
  rw [add_slice, cornersOf_int]
  simp only [foldCorners, hstep, Option.some_bind, applyCorner_applyCorner]
  norm_num

/-! ### Additivity of the accumulation -/

lemma addState_zero (D : ℕ) (s : BPState D) :
    addState D s (zeroState D) = s := by
  ext i <;> simp [addState, zeroState]

lemma addState_comm_assoc (D : ℕ) (s a b : BPState D) :
    addState D (addState D s a) b = addState D (addState D s b) a := by
  ext i <;> simp [addState] <;> ring

lemma add_for_corner_shift (D : ℕ) (a st : BPState D) (p : Pt) (v : ℝ)
    (c : Corner) :
    add_for_corner D (addState D a st) p v c =
      (add_for_corner D st p v c).map (addState D a) := by
  unfold add_for_corner
  cases resolveIdx D (c.2.2 + d2 D) with
  | none => rfl
  | some zi =>
    cases resolveIdx D (c.2.1 + d2 D) with
    | none => rfl
    | some yi =>
      cases resolveIdx D (c.1 + d2 D) with
      | none => rfl
      | some xi =>
        simp only [Option.map_some', Option.some_inj]
        ext j <;> by_cases h : j = (zi, yi, xi) <;> simp [addState, h] <;> ring

lemma foldCorners_shift (D : ℕ) (p : Pt) (v : ℝ) (l : List Corner)
    (a st : BPState D) :
    foldCorners D p v l (addState D a st) =
      (foldCorners D p v l st).map (addState D a) := by
  induction l generalizing st with
  | nil => rfl
  | cons c rest ih =>
      rw [foldCorners, foldCorners, add_for_corner_shift]
      cases add_for_corner D st p v c with
      | none => rfl
      | some s => simpa using ih s

lemma add_slice_shift (D : ℕ) (a st : BPState D) (p : Pt) (v : ℝ) :
    add_slice D (addState D a st) p v =
      (add_slice D st p v).map (addState D a) := by
  rw [add_slice, add_slice, foldCorners_shift]

/-- The value of an `add_slice` call is the incoming state plus a delta
that depends only on the sample, and its success does not depend on the
incoming state. -/
lemma add_slice_delta (D : ℕ) (st : BPState D) (p : Pt) (v : ℝ) :
    add_slice D st p v =
      (add_slice D (zeroState D) p v).map (addState D st) := by
  rw [← add_slice_shift, addState_zero]

lemma add_slice_comm (D : ℕ) (st : BPState D) (x y : Pt × ℝ) :
    (add_slice D st x.1 x.2).bind (fun s => add_slice D s y.1 y.2) =
      (add_slice D st y.1 y.2).bind (fun s => add_slice D s x.1 x.2) := by
  rw [add_slice_delta D st x.1 x.2, add_slice_delta D st y.1 y.2]
  cases hx : add_slice D (zeroState D) x.1 x.2 with
  | none =>
      cases hy : add_slice D (zeroState D) y.1 y.2 with
      | none => rfl
      | some dy =>
          simp [add_slice_delta D (addState D st dy) x.1 x.2, hx]
  | some dx =>
      cases hy : add_slice D (zeroState D) y.1 y.2 with
      | none =>
          simp [add_slice_delta D (addState D st dx) y.1 y.2, hy]
      | some dy =>
          simp [add_slice_delta D (addState D st dx) y.1 y.2, hy,
            add_slice_delta D (addState D st dy) x.1 x.2, hx]
          exact addState_comm_assoc D st dx dy

lemma backproject_append (D : ℕ) (l1 l2 : List (Pt × ℝ)) (st : BPState D) :
    backproject D (l1 ++ l2) st =
      (backproject D l1 st).bind (fun s => backproject D l2 s) := by
  induction l1 generalizing st with
  | nil => simp [backproject]
  | cons x rest ih =>
      rw [List.cons_append, backproject, backproject]
      cases add_slice D st x.1 x.2 with
      | none => rfl
      | some s => simpa using ih s

lemma backproject_shift (D : ℕ) (l : List (Pt × ℝ)) (a st : BPState D) :
    backproject D l (addState D a st) =
      (backproject D l st).map (addState D a) := by
  induction l generalizing st with
  | nil => rfl
  | cons x rest ih =>
      rw [backproject, backproject, add_slice_shift]
      cases add_slice D st x.1 x.2 with
      | none => rfl
      | some s => simpa using ih s

lemma backproject_perm (D : ℕ) (l l2 : List (Pt × ℝ)) (h : l.Perm l2) :
    ∀ st : BPState D, backproject D l st = backproject D l2 st := by
  induction h with
  | nil => intro st; rfl
  | cons x h ih =>
      intro st
      rw [backproject, backproject]
      cases add_slice D st x.1 x.2 with
      | none => rfl
      | some s => simpa using ih s
  | swap x y l =>
      intro st
      show (add_slice D st y.1 y.2).bind _ = (add_slice D st x.1 x.2).bind _
      have hbind : ∀ (o : Option (BPState D)) (f g : BPState D → Option (BPState D)),
          (∀ s, f s = g s) → o.bind f = o.bind g := by
        intro o f g hfg; cases o <;> simp [hfg]
      calc (add_slice D st y.1 y.2).bind
            (fun s => (add_slice D s x.1 x.2).bind (fun s2 => backproject D l s2))
          = ((add_slice D st y.1 y.2).bind
              (fun s => add_slice D s x.1 x.2)).bind (fun s2 => backproject D l s2) := by
            cases add_slice D st y.1 y.2 <;> rfl
        _ = ((add_slice D st x.1 x.2).bind
              (fun s => add_slice D s y.1 y.2)).bind (fun s2 => backproject D l s2) := by
            rw [add_slice_comm]
        _ = (add_slice D st x.1 x.2).bind
              (fun s => (add_slice D s y.1 y.2).bind (fun s2 => backproject D l s2)) := by
            cases add_slice D st x.1 x.2 <;> rfl
  | trans _ _ ih1 ih2 =>
      intro st
      rw [ih1 st, ih2 st]

/-! ### Monotonicity and non-negativity of the weight volume -/

lemma add_for_corner_counts_mono (D : ℕ) (st st2 : BPState D) (p : Pt) (v : ℝ)
    (c : Corner) (h : add_for_corner D st p v c = some st2) :
    ∀ i : Idx D, st.counts i ≤ st2.counts i := by
  intro i
  unfold add_for_corner at h
  split at h
  · next zi yi xi hz hy hx =>
      simp only [Option.some_inj] at h
      subst h
      by_cases hi : i = (zi, yi, xi)
      · rw [hi]
        simp only [eq_self_iff_true, if_true]
        linarith [weight_nonneg c p]
      · simp [hi]
  · exact absurd h (by simp)

lemma foldCorners_counts_mono (D : ℕ) (p : Pt) (v : ℝ) (l : List Corner) :
    ∀ st st2 : BPState D, foldCorners D p v l st = some st2 →
      ∀ i : Idx D, st.counts i ≤ st2.counts i := by
  induction l with
  | nil =>
      intro st st2 h i
      simp only [foldCorners, Option.some_inj] at h
      rw [h]
  | cons c rest ih =>
      intro st st2 h i
      rw [foldCorners] at h
      rcases hc : add_for_corner D st p v c with _ | s <;> rw [hc] at h
      · exact absurd h (by simp)
      · simp only [Option.some_bind] at h
        exact le_trans (add_for_corner_counts_mono D st s p v c hc i) (ih s st2 h i)

lemma add_slice_counts_mono (D : ℕ) (st st2 : BPState D) (p : Pt) (v : ℝ)
    (h : add_slice D st p v = some st2) :
    ∀ i : Idx D, st.counts i ≤ st2.counts i :=
  foldCorners_counts_mono D p v (cornersOf p) st st2 h

lemma backproject_counts_mono (D : ℕ) (l : List (Pt × ℝ)) :
    ∀ st st2 : BPState D, backproject D l st = some st2 →
      ∀ i : Idx D, st.counts i ≤ st2.counts i := by
  induction l with
  | nil =>
      intro st st2 h i
      simp only [backproject, Option.some_inj] at h
      rw [h]
  | cons x rest ih =>
      intro st st2 h i
      rw [backproject] at h
      rcases hc : add_slice D st x.1 x.2 with _ | s <;> rw [hc] at h
      · exact absurd h (by simp)
      · simp only [Option.some_bind] at h
        exact le_trans (add_slice_counts_mono D st s x.1 x.2 hc i) (ih s st2 h i)

/-! ### Failure propagation for out-of-range corners -/

lemma add_for_corner_none (D : ℕ) (st : BPState D) (p : Pt) (v : ℝ)
    (c : Corner)
    (h : (c.1 + d2 D < -(D : ℤ) ∨ (D : ℤ) ≤ c.1 + d2 D)
      ∨ (c.2.1 + d2 D < -(D : ℤ) ∨ (D : ℤ) ≤ c.2.1 + d2 D)
      ∨ (c.2.2 + d2 D < -(D : ℤ) ∨ (D : ℤ) ≤ c.2.2 + d2 D)) :
    add_for_corner D st p v c = none := by
  unfold add_for_corner
  rcases h with h | h | h
  · rw [resolveIdx_none D _ h]
    cases resolveIdx D (c.2.2 + d2 D) <;> cases resolveIdx D (c.2.1 + d2 D) <;> rfl
  · rw [resolveIdx_none D _ h]
    cases resolveIdx D (c.2.2 + d2 D) <;> rfl
  · rw [resolveIdx_none D _ h]

lemma cornersOf_three_halves :
    cornersOf ((3 / 2 : ℚ), (0 : ℚ), (0 : ℚ)) =
      [(1, 0, 0), (2, 0, 0), (1, 0, 0), (1, 0, 0),
       (2, 0, 0), (1, 0, 0), (2, 0, 0), (2, 0, 0)] := by
  norm_num [cornersOf, Int.ceil_eq_iff]

lemma foldCorners_none (D : ℕ) (p : Pt) (v : ℝ) (l : List Corner) (c : Corner)
    (hc : c ∈ l) (hbad : ∀ s : BPState D, add_for_corner D s p v c = none) :
    ∀ st : BPState D, foldCorners D p v l st = none := by
  induction l with
  | nil => exact absurd hc (List.not_mem_nil c)
  | cons a rest ih =>
      intro st
      rw [foldCorners]
      rcases List.mem_cons.mp hc with rfl | hmem
      · rw [hbad st]; rfl
      · cases add_for_corner D st p v a with
        | none => rfl
        | some s => simpa using ih hmem s

/-! ### Claim C1 -/

/-- C1, counterexample: a single sample exactly on the integer lattice
vertex `(0, 0, 0)` (with `D = 4`, so the centered voxel is `(2, 2, 2)`)
deposits total weight `8` into `counts` at that vertex, not `1` as the
claim states: all eight floor/ceil corner enumerations coincide there
and each contributes weight `1`. -/
theorem c1_counterexample :
    (add_slice 4 (zeroState 4) ((0 : ℚ), (0 : ℚ), (0 : ℚ)) 1).map
      (fun s => s.counts (⟨2, by norm_num⟩, ⟨2, by norm_num⟩, ⟨2, by norm_num⟩))
      = some 8 ∧ (8 : ℝ) ≠ 1 := by
  constructor
  · have h := add_slice_int_point 4 (zeroState 4) 0 0 0 1 (by decide) (by decide) (by decide)
    simp only [Int.cast_zero] at h
    rw [h]
    simp [applyCorner, zeroState, d2]
  · norm_num

/-- C1, amended: one `add_slice` invocation on a sample lying exactly on
an integer lattice vertex (with all three centered indices in range)
deposits total weight exactly `8` into `counts` at that vertex — each of
the eight coincident floor/ceil corner enumerations contributes weight
`1` — and `8 * v` into `V` there, and touches no other voxel. -/
theorem c1_amended (D : ℕ) (st : BPState D) (a b c : ℤ) (v : ℝ)
    (hx : 0 ≤ a + d2 D ∧ a + d2 D < (D : ℤ))
    (hy : 0 ≤ b + d2 D ∧ b + d2 D < (D : ℤ))
    (hz : 0 ≤ c + d2 D ∧ c + d2 D < (D : ℤ)) :
    add_slice D st ((a : ℚ), (b : ℚ), (c : ℚ)) v =
      some (applyCorner D st
        (⟨(c + d2 D).toNat, by omega⟩, ⟨(b + d2 D).toNat, by omega⟩,
         ⟨(a + d2 D).toNat, by omega⟩) 8 v) :=
  add_slice_int_point D st a b c v hx hy hz

/-- C1 witness: the amended theorem applied at `D = 4`, vertex
`(0,0,0)`, value `1` on the zero volumes. -/
theorem c1_amended_witness :
    (0 ≤ (0 : ℤ) + d2 4 ∧ (0 : ℤ) + d2 4 < (4 : ℤ)) ∧
    (add_slice 4 (zeroState 4) ((0 : ℚ), (0 : ℚ), (0 : ℚ)) 1).isSome = true := by
  refine ⟨by decide, ?_⟩
  have h := c1_amended 4 (zeroState 4) 0 0 0 1 (by decide) (by decide) (by decide)
  simp only [Int.cast_zero] at h
  rw [h]
  rfl

/-! ### Claim C2 -/

/-- C2, counterexample: the sample `(3/2, 0, 0)` with `D = 4` has the
ceil corner `(2, 0, 0)`, whose x index `2 + d2 = 4` lies outside
`[0, 4)`; `add_slice` raises an index error (modelled `none`) instead of
silently dropping that corner's contribution, so nothing at all is
accumulated by the invocation. -/
theorem c2_counterexample :
    add_slice 4 (zeroState 4) ((3 / 2 : ℚ), (0 : ℚ), (0 : ℚ)) 1 = none := by
  rw [add_slice]
  exact foldCorners_none 4 _ 1 _ (2, 0, 0)
    (by rw [cornersOf_three_halves]; decide)
    (fun s => add_for_corner_none 4 s _ 1 (2, 0, 0) (Or.inl (Or.inr (by decide))))
    (zeroState 4)

/-- C2, amended: `add_slice` performs no bounds clipping.  A corner
whose centered index falls outside `[-D, D)` on some axis makes the
whole invocation raise an index error (modelled `none`), dropping the
in-range corners of the same sample as well; and a negative centered
index in `[-D, 0)` does not raise but wraps Python-style to the
opposite end of the volume. -/
theorem c2_amended (D : ℕ) (st : BPState D) (p : Pt) (v : ℝ) (c : Corner)
    (hc : c ∈ cornersOf p)
    (hbad : (c.1 + d2 D < -(D : ℤ) ∨ (D : ℤ) ≤ c.1 + d2 D)
      ∨ (c.2.1 + d2 D < -(D : ℤ) ∨ (D : ℤ) ≤ c.2.1 + d2 D)
      ∨ (c.2.2 + d2 D < -(D : ℤ) ∨ (D : ℤ) ≤ c.2.2 + d2 D)) :
    add_slice D st p v = none ∧
    ∀ i : ℤ, -(D : ℤ) ≤ i → i < 0 →
      ∃ h : (i + (D : ℤ)).toNat < D, resolveIdx D i = some ⟨(i + (D : ℤ)).toNat, h⟩ := by
  constructor
  · rw [add_slice]
    exact foldCorners_none D p v _ c hc
      (fun s => add_for_corner_none D s p v c hbad) st
  · intro i h0 h1
    exact ⟨by omega, resolveIdx_neg D i h0 h1⟩

/-- C2 witness: the amended theorem applied at `D = 4` to the sample
`(3/2, 0, 0)` and its out-of-range ceil corner `(2, 0, 0)`. -/
theorem c2_amended_witness :
    ((2, 0, 0) ∈ cornersOf ((3 / 2 : ℚ), (0 : ℚ), (0 : ℚ))) ∧
    add_slice 4 (zeroState 4) ((3 / 2 : ℚ), (0 : ℚ), (0 : ℚ)) 1 = none :=
  ⟨by rw [cornersOf_three_halves]; decide,
   (c2_amended 4 (zeroState 4) ((3 / 2 : ℚ), (0 : ℚ), (0 : ℚ)) 1 (2, 0, 0)
     (by rw [cornersOf_three_halves]; decide) (Or.inl (Or.inr (by decide)))).1⟩

/-! ### Claim C3 -/

/-- C3: for every sample `p` with value `v` and every corner `c` among
the eight floor/ceil combinations whose centered indices are in range,
the corner update computes the weight `w = max 0 (1 - ‖c - p‖₂)` and
performs exactly `V[(z,y,x)+d2] += w * v` and
`counts[(z,y,x)+d2] += w`. -/
theorem c3_corner_formula (D : ℕ) (st : BPState D) (p : Pt) (v : ℝ)
    (c : Corner) (_hc : c ∈ cornersOf p)
    (hx : 0 ≤ c.1 + d2 D ∧ c.1 + d2 D < (D : ℤ))
    (hy : 0 ≤ c.2.1 + d2 D ∧ c.2.1 + d2 D < (D : ℤ))
    (hz : 0 ≤ c.2.2 + d2 D ∧ c.2.2 + d2 D < (D : ℤ)) :
    add_for_corner D st p v c =
      some (applyCorner D st
        (⟨(c.2.2 + d2 D).toNat, by omega⟩, ⟨(c.2.1 + d2 D).toNat, by omega⟩,
         ⟨(c.1 + d2 D).toNat, by omega⟩)
        (max 0 (1 - Real.sqrt (((c.1 : ℝ) - (p.1 : ℝ)) ^ 2
          + ((c.2.1 : ℝ) - (p.2.1 : ℝ)) ^ 2 + ((c.2.2 : ℝ) - (p.2.2 : ℝ)) ^ 2)))
        v) := by
  rw [add_for_corner_eq D st p v c hx hy hz, weight_eq_max]

/-- C3 witness: the corner `(0,0,0)` of the sample `(0,0,0)` at
`D = 4`. -/
theorem c3_witness :
    ((0, 0, 0) ∈ cornersOf ((0 : ℚ), (0 : ℚ), (0 : ℚ))) ∧
    (0 ≤ (0 : ℤ) + d2 4 ∧ (0 : ℤ) + d2 4 < (4 : ℤ)) ∧
    (add_for_corner 4 (zeroState 4) ((0 : ℚ), (0 : ℚ), (0 : ℚ)) 1 (0, 0, 0)).isSome
      = true := by
  refine ⟨by decide, by decide, ?_⟩
  rw [c3_corner_formula 4 (zeroState 4) ((0 : ℚ), (0 : ℚ), (0 : ℚ)) 1 (0, 0, 0)
    (by decide) (by decide) (by decide) (by decide)]
  rfl

/-! ### Claim C4 -/

/-- C4: in tilt-series mode the driver does not load the data of the
current image index `ii` at all: line 211 evaluates
`data.get_tilt(index)` where the name `index` is unbound in `main`, so
for every image index the fetch fails (NameError, modelled `none`)
instead of yielding image `ii`'s Fourier data. -/
theorem c4_tilt_fetch (F : Type) (getTilt getItem : ℕ → F) (ii : ℕ) :
    fetchFF F true main_index_binding getTilt getItem ii = none := by
  simp [fetchFF, main_index_binding]

/-! ### Claim C5 -/

/-- C5: at the terminal normalization, a voxel whose `counts` entry is
zero gets `counts` entry `1`, and, when its accumulator entry is zero
(as for a voxel no image contributed to), output density `0` — not a
division by zero. -/
theorem c5_zero_counts (D : ℕ) (st : BPState D) (i : Idx D)
    (h0 : st.counts i = 0) (hV : st.V i = 0) :
    (normalizeState D st).counts i = 1 ∧ (normalizeState D st).V i = 0 := by
  unfold normalizeState
  refine ⟨?_, ?_⟩
  · simp only [if_pos h0]
  · simp only [if_pos h0, hV, zero_div]

/-- C5 witness: the all-zero volumes at `D = 2`, voxel `(0,0,0)`. -/
theorem c5_witness :
    ((zeroState 2).counts ((0 : Fin 2), (0 : Fin 2), (0 : Fin 2)) = 0) ∧
    ((zeroState 2).V ((0 : Fin 2), (0 : Fin 2), (0 : Fin 2)) = 0) ∧
    ((normalizeState 2 (zeroState 2)).counts ((0 : Fin 2), (0 : Fin 2), (0 : Fin 2)) = 1 ∧
     (normalizeState 2 (zeroState 2)).V ((0 : Fin 2), (0 : Fin 2), (0 : Fin 2)) = 0) :=
  ⟨rfl, rfl, c5_zero_counts 2 (zeroState 2) ((0 : Fin 2), (0 : Fin 2), (0 : Fin 2)) rfl rfl⟩

/-! ### Claim C6 -/

/-- C6: the translation phase-shift and the CTF-sign correction
commute: translating the sign-corrected coefficients equals
sign-correcting the translated coefficients, for every masked
coefficient vector, translation, and CTF value row. -/
theorem c6_translate_ctf_commute {I : Type} (freqs : I → ℚ × ℚ) (t : ℚ × ℚ)
    (cv : I → ℝ) (ff : I → ℂ) :
    translate_ht freqs t (ctfSignCorrect cv ff) =
      ctfSignCorrect cv (translate_ht freqs t ff) := by
  funext i
  unfold translate_ht ctfSignCorrect
  ring

/-! ### Claim C7 -/

/-- C7: accumulation is additive and order-independent under exact
arithmetic: processing two subsets into separate zero-initialized
accumulator/weight pairs and summing element-wise equals processing
the concatenation in one pass, and any permutation of the processing
order yields the same final pair. -/
theorem c7_additive (D : ℕ) (l1 l2 : List (Pt × ℝ)) (s1 s2 : BPState D)
    (h1 : backproject D l1 (zeroState D) = some s1)
    (h2 : backproject D l2 (zeroState D) = some s2) :
    backproject D (l1 ++ l2) (zeroState D) = some (addState D s1 s2) ∧
    ∀ l3 : List (Pt × ℝ), (l1 ++ l2).Perm l3 →
      backproject D l3 (zeroState D) = some (addState D s1 s2) := by
  have hshift : backproject D l2 s1 =
      (backproject D l2 (zeroState D)).map (addState D s1) := by
    conv_lhs => rw [← addState_zero D s1]
    exact backproject_shift D l2 s1 (zeroState D)
  have hmain : backproject D (l1 ++ l2) (zeroState D) = some (addState D s1 s2) := by
    rw [backproject_append, h1]
    simp only [Option.some_bind]
    rw [hshift, h2]
    rfl
  exact ⟨hmain, fun l3 hperm =>
    (backproject_perm D (l1 ++ l2) l3 hperm (zeroState D)).symm.trans hmain⟩

/-- C7 witness: the empty partition at `D = 2`. -/
theorem c7_witness :
    (backproject 2 [] (zeroState 2) = some (zeroState 2)) ∧
    backproject 2 ([] ++ []) (zeroState 2) =
      some (addState 2 (zeroState 2) (zeroState 2)) :=
  ⟨rfl, (c7_additive 2 [] [] (zeroState 2) (zeroState 2) rfl rfl).1⟩

/-! ### Claim C8 -/

/-- C8: every corner update that is performed adds `w * v` to `V` and
the very same weight `w` to `counts`, at the very same voxel index. -/
theorem c8_paired (D : ℕ) (st : BPState D) (p : Pt) (v : ℝ) (c : Corner) :
    add_for_corner D st p v c = none ∨
    ∃ i : Idx D, ∃ w : ℝ, add_for_corner D st p v c =
      some ⟨fun j => if j = i then st.V j + w * v else st.V j,
            fun j => if j = i then st.counts j + w else st.counts j⟩ := by
  unfold add_for_corner
  cases resolveIdx D (c.2.2 + d2 D) with
  | none => exact Or.inl rfl
  | some zi =>
    cases resolveIdx D (c.2.1 + d2 D) with
    | none => exact Or.inl rfl
    | some yi =>
      cases resolveIdx D (c.1 + d2 D) with
      | none => exact Or.inl rfl
      | some xi => exact Or.inr ⟨(zi, yi, xi), weight c p, rfl⟩

/-! ### Claim C9 -/

/-- C9: every splat weight is clamped non-negative, so starting from
the zero-initialized volumes every `counts` entry is non-negative after
any successful sequence of invocations and is non-decreasing across
further invocations. -/
theorem c9_counts (D : ℕ) (l1 l2 : List (Pt × ℝ)) (s1 s2 : BPState D)
    (h1 : backproject D l1 (zeroState D) = some s1)
    (h2 : backproject D l2 s1 = some s2) :
    (∀ c p, 0 ≤ weight c p) ∧ (∀ i, 0 ≤ s1.counts i) ∧
    (∀ i, s1.counts i ≤ s2.counts i) := by
  refine ⟨weight_nonneg, fun i => ?_,
    fun i => backproject_counts_mono D l2 s1 s2 h2 i⟩
  have h := backproject_counts_mono D l1 (zeroState D) s1 h1 i
  simpa [zeroState] using h

/-- C9 witness: the empty sequences at `D = 2`. -/
theorem c9_witness :
    (backproject 2 [] (zeroState 2) = some (zeroState 2)) ∧
    0 ≤ weight (0, 0, 0) ((0 : ℚ), (0 : ℚ), (0 : ℚ)) ∧
    0 ≤ (zeroState 2).counts ((0 : Fin 2), (0 : Fin 2), (0 : Fin 2)) :=
  ⟨rfl,
   (c9_counts 2 [] [] (zeroState 2) (zeroState 2) rfl rfl).1 (0, 0, 0)
     ((0 : ℚ), (0 : ℚ), (0 : ℚ)),
   (c9_counts 2 [] [] (zeroState 2) (zeroState 2) rfl rfl).2.1
     ((0 : Fin 2), (0 : Fin 2), (0 : Fin 2))⟩

/-! ### Claim C10 -/

/-- C10: when the output path does not end in `.mrc`, `main` fails at
its entry assertion, yielding only an error — no dataset loading,
volume allocation, or accumulation effect is produced. -/
theorem c10_entry (o : List Char) (D : ℕ) (images : List (Pt × ℝ))
    (h : endsWithChars o mrcSuffix = false) :
    runMain o D images = Except.error "AssertionError" := by
  unfold runMain
  rw [h]
  rfl

/-- C10 witness: the output path `output.txt` at `D = 2`. -/
theorem c10_witness :
    (endsWithChars ['o', 'u', 't', 'p', 'u', 't', '.', 't', 'x', 't'] mrcSuffix
      = false) ∧
    runMain ['o', 'u', 't', 'p', 'u', 't', '.', 't', 'x', 't'] 2 []
      = Except.error "AssertionError" :=
  ⟨by decide,
   c10_entry ['o', 'u', 't', 'p', 'u', 't', '.', 't', 'x', 't'] 2 [] (by decide)⟩

end CryoDRGN
